import Mathlib

/-!
Verification of the trie-reservoir language model (`trlm.c`).

The development shallow-embeds the core of the program:
  - the prefix trie (`TrieNode`, `create_trie_node`, `trie_insert`),
  - the depth-indexed reservoir dynamics (`reservoir_update`,
    `trie_reservoir_forward`),
  - the reservoir weight-bank initialization and scaling
    (`rand_float`, `init_reservoir_weights`),
  - the readout layer (`readout_forward`, `readout_train`).

Real-valued computations (matrix products, `tanh`, `exp`, softmax) are
idealized over `ℝ`; the exact integer-to-rational behaviour of the random
sampler `rand_float` is modelled over `ℚ`.  Randomness is modelled by
passing the stream of drawn values explicitly (`nz` below), mirroring the
successive `rand()` calls of the C code.
-/

/-- Constant `MAX_CHILDREN` from the source: the trie alphabet is one byte. -/
abbrev MAX_CHILDREN : ℕ := 256

/-- Constant `RESERVOIR_SIZE` from the source. -/
abbrev RESERVOIR_SIZE : ℕ := 64

/-- Constant `MAX_DEPTH` from the source: the fixed trie depth bound. -/
abbrev MAX_DEPTH : ℕ := 16

/-- Constant `ALPHA` from the source: the decay constant. -/
def ALPHA : ℝ := 0.85

/-- Constant `RHO` from the source: the target mean-absolute-value after scaling. -/
def RHO : ℝ := 0.9

/-- Constant `OUT_DIM` from the source: the readout output cardinality. -/
abbrev OUT_DIM : ℕ := 4

/-- Reservoir state vectors (`float h[RESERVOIR_SIZE]`). -/
abbrev RVec := Fin RESERVOIR_SIZE → ℝ

/-- Square reservoir matrices (`float W[RESERVOIR_SIZE*RESERVOIR_SIZE]`). -/
abbrev RMat := Fin RESERVOIR_SIZE → Fin RESERVOIR_SIZE → ℝ

/-- One byte, the symbol type indexing a node's `children` array. -/
abbrev Byte := Fin MAX_CHILDREN

/-- Structure `TrieNode` from the source: a 256-entry child array (absent children
are `none`, mirroring `NULL`), a `depth` field and an `is_leaf` flag. -/
inductive TrieNode : Type where
  | mk : ℕ → Bool → (Byte → Option TrieNode) → TrieNode

/-- The `depth` field of a node. -/
def TrieNode.depth : TrieNode → ℕ
  | .mk d _ _ => d

/-- The `is_leaf` field of a node. -/
def TrieNode.is_leaf : TrieNode → Bool
  | .mk _ b _ => b

/-- The `children` array of a node. -/
def TrieNode.children : TrieNode → Byte → Option TrieNode
  | .mk _ _ ch => ch

@[simp] theorem TrieNode.depth_mk (d : ℕ) (b : Bool) (ch : Byte → Option TrieNode) :
    (TrieNode.mk d b ch).depth = d := rfl

@[simp] theorem TrieNode.is_leaf_mk (d : ℕ) (b : Bool) (ch : Byte → Option TrieNode) :
    (TrieNode.mk d b ch).is_leaf = b := rfl

@[simp] theorem TrieNode.children_mk (d : ℕ) (b : Bool) (ch : Byte → Option TrieNode) :
    (TrieNode.mk d b ch).children = ch := rfl

/-- Function `create_trie_node` from the source: a fresh node at the given depth,
no children, not a leaf. -/
def create_trie_node (d : ℕ) : TrieNode :=
  TrieNode.mk d false (fun _ => none)

/-- The loop body of `trie_insert`, running over the (already truncated)
symbol list: create the missing child (at depth `cur.depth + 1`) or reuse
the existing one, descend, and finally set `is_leaf` on the node reached. -/
def trie_insert_aux : TrieNode → List Byte → TrieNode
  | .mk d _ ch, [] => TrieNode.mk d true ch
  | .mk d lf ch, c :: rest =>
      TrieNode.mk d lf (Function.update ch c
        (some (trie_insert_aux
          (match ch c with
           | none => create_trie_node (d + 1)
           | some u => u) rest)))

/-- Function `trie_insert` from the source: the loop runs while
`i < length && i < MAX_DEPTH`, i.e. over the `MAX_DEPTH`-prefix of the
string. -/
def trie_insert (root : TrieNode) (s : List Byte) : TrieNode :=
  trie_insert_aux root (s.take MAX_DEPTH)

/-- Follow a symbol path through the trie, returning the node reached,
or `none` if some child on the way is absent. -/
def walk : TrieNode → List Byte → Option TrieNode
  | t, [] => some t
  | t, c :: rest =>
      match t.children c with
      | none => none
      | some u => walk u rest

/-- The depth invariant of the spec: every populated child is one level
deeper than its parent, recursively. -/
inductive DepthOk : TrieNode → Prop where
  | intro (t : TrieNode)
      (hd : ∀ c u, t.children c = some u → u.depth = t.depth + 1)
      (hr : ∀ c u, t.children c = some u → DepthOk u) :
      DepthOk t

theorem DepthOk.child {t : TrieNode} {c : Byte} {u : TrieNode}
    (ht : DepthOk t) (h : t.children c = some u) :
    u.depth = t.depth + 1 ∧ DepthOk u := by
  cases ht with
  | intro t hd hr => exact ⟨hd c u h, hr c u h⟩

theorem DepthOk.of_children (t : TrieNode)
    (h : ∀ c u, t.children c = some u → u.depth = t.depth + 1 ∧ DepthOk u) :
    DepthOk t :=
  DepthOk.intro t (fun c u hc => (h c u hc).1) (fun c u hc => (h c u hc).2)

theorem depthOk_create (d : ℕ) : DepthOk (create_trie_node d) := by
  refine DepthOk.intro _ ?_ ?_ <;>
    · intro c u h
      simp [create_trie_node] at h

theorem trie_insert_aux_depth (s : List Byte) (t : TrieNode) :
    (trie_insert_aux t s).depth = t.depth := by
  cases t with
  | mk d lf ch => cases s <;> simp [trie_insert_aux]

theorem depthOk_insert_aux : ∀ (s : List Byte) (t : TrieNode),
    DepthOk t → DepthOk (trie_insert_aux t s) := by
  intro s
  induction s with
  | nil =>
      intro t ht
      cases t with
      | mk d lf ch =>
          refine DepthOk.of_children _ ?_
          intro c u h
          simp [trie_insert_aux] at h
          exact ht.child (c := c) (by simpa using h)
  | cons c rest ih =>
      intro t ht
      cases t with
      | mk d lf ch =>
          refine DepthOk.of_children _ ?_
          intro c' u h
          simp only [trie_insert_aux, TrieNode.children_mk] at h
          have hres : (trie_insert_aux (TrieNode.mk d lf ch) (c :: rest)).depth = d :=
            trie_insert_aux_depth _ _
          rw [hres]
          by_cases hc : c' = c
          · subst hc
            rw [Function.update_same] at h
            cases h
            constructor
            · rw [trie_insert_aux_depth]
              cases hch : ch c' with
              | none => simp [hch, create_trie_node]
              | some v =>
                  simp only [hch]
                  simpa using (ht.child (c := c') (by simpa using hch)).1
            · apply ih
              cases hch : ch c' with
              | none => simp [hch]; exact depthOk_create _
              | some v =>
                  simp only [hch]
                  exact (ht.child (c := c') (by simpa using hch)).2
          · rw [Function.update_noteq hc] at h
            exact ht.child (c := c') (by simpa using h)

theorem depthOk_insert (t : TrieNode) (s : List Byte) (ht : DepthOk t) :
    DepthOk (trie_insert t s) :=
  depthOk_insert_aux _ _ ht

/-- Function `activate_tanh` from the source: the explicit
`(e^x - e^(-x)) / (e^x + e^(-x))` formula. -/
noncomputable def activate_tanh (x : ℝ) : ℝ :=
  (Real.exp x - Real.exp (-x)) / (Real.exp x + Real.exp (-x))

/-- Function `matvec` from the source: `out[i] = sum_j W[i][j] * in[j]`. -/
noncomputable def matvec (W : RMat) (v : RVec) : RVec :=
  fun i => ∑ j, W i j * v j

/-- Function `reservoir_update` from the source:
`h[i] := ALPHA * tanh((W*h)[i] + 0.01 * draw_i)`, where `nzv i` is the
`rand_float()` value drawn for component `i` of this call. -/
noncomputable def reservoir_update (Wl : RMat) (nzv : RVec) (h : RVec) : RVec :=
  fun i => ALPHA * activate_tanh (matvec Wl h i + 0.01 * nzv i)

/-- The loop body of `trie_reservoir_forward`, over the truncated input:
on a missing child the loop breaks and the state accumulated so far is
returned; otherwise the state is updated with the weight matrix at the
*current* node's depth and the traversal descends.  `k` counts the
`reservoir_update` calls made so far, indexing the noise stream `nz`. -/
noncomputable def forward_aux (w : ℕ → RMat) (nz : ℕ → RVec) :
    TrieNode → List Byte → RVec → ℕ → RVec
  | _, [], h, _ => h
  | t, c :: rest, h, k =>
      match t.children c with
      | none => h
      | some u => forward_aux w nz u rest (reservoir_update (w t.depth) (nz k) h) (k + 1)

/-- Function `trie_reservoir_forward` from the source: the loop runs while
`i < length && i < MAX_DEPTH` over the input string. -/
noncomputable def trie_reservoir_forward (w : ℕ → RMat) (nz : ℕ → RVec)
    (root : TrieNode) (input : List Byte) (h : RVec) : RVec :=
  forward_aux w nz root (input.take MAX_DEPTH) h 0

/-- The sequence of depth indices `l = cur.depth` at which
`trie_reservoir_forward`'s loop invokes `reservoir_update`, over the
already-truncated input. -/
def trie_forward_depths_aux : TrieNode → List Byte → List ℕ
  | _, [] => []
  | t, c :: rest =>
      match t.children c with
      | none => []
      | some u => t.depth :: trie_forward_depths_aux u rest

/-- The sequence of weight-bank indices used by `trie_reservoir_forward`
on the given input. -/
def trie_forward_depths (root : TrieNode) (input : List Byte) : List ℕ :=
  trie_forward_depths_aux root (input.take MAX_DEPTH)

theorem trie_forward_depths_aux_range : ∀ (p : List Byte) (t : TrieNode),
    DepthOk t →
    trie_forward_depths_aux t p =
      List.range' t.depth (trie_forward_depths_aux t p).length := by
  intro p
  induction p with
  | nil => intro t _; simp [trie_forward_depths_aux]
  | cons c rest ih =>
      intro t ht
      cases hch : t.children c with
      | none => simp [trie_forward_depths_aux, hch]
      | some u =>
          have hu := ht.child hch
          simp only [trie_forward_depths_aux, hch, List.length_cons]
          rw [List.range'_succ, ← hu.1, ← ih u hu.2]

theorem trie_forward_depths_aux_length_le : ∀ (p : List Byte) (t : TrieNode),
    (trie_forward_depths_aux t p).length ≤ p.length := by
  intro p
  induction p with
  | nil => intro t; simp [trie_forward_depths_aux]
  | cons c rest ih =>
      intro t
      cases hch : t.children c with
      | none => simp [trie_forward_depths_aux, hch]
      | some u =>
          simp only [trie_forward_depths_aux, hch, List.length_cons]
          exact Nat.succ_le_succ (ih u)

theorem trie_forward_depths_aux_length_of_walk : ∀ (p : List Byte) (t : TrieNode),
    (walk t p).isSome = true →
    (trie_forward_depths_aux t p).length = p.length := by
  intro p
  induction p with
  | nil => intro t _; simp [trie_forward_depths_aux]
  | cons c rest ih =>
      intro t hw
      cases hch : t.children c with
      | none => simp [walk, hch] at hw
      | some u =>
          simp only [walk, hch] at hw
          simp only [trie_forward_depths_aux, hch, List.length_cons]
          rw [ih u hw]

theorem forward_aux_eq_foldl (w : ℕ → RMat) (nz : ℕ → RVec) :
    ∀ (p : List Byte) (t : TrieNode) (h : RVec) (k : ℕ),
    DepthOk t → t.depth = k →
    forward_aux w nz t p h k =
      (trie_forward_depths_aux t p).foldl
        (fun h' l => reservoir_update (w l) (nz l) h') h := by
  intro p
  induction p with
  | nil => intro t h k _ _; simp [forward_aux, trie_forward_depths_aux]
  | cons c rest ih =>
      intro t h k ht hk
      cases hch : t.children c with
      | none => simp [forward_aux, trie_forward_depths_aux, hch]
      | some u =>
          have hu := ht.child hch
          simp only [forward_aux, trie_forward_depths_aux, hch, List.foldl_cons, hk]
          exact ih u _ (k + 1) hu.2 (by rw [hu.1, hk])

theorem walk_trie_insert_aux : ∀ (s : List Byte) (t : TrieNode),
    DepthOk t →
    ∃ u, walk (trie_insert_aux t s) s = some u ∧ u.is_leaf = true ∧
      u.depth = t.depth + s.length := by
  intro s
  induction s with
  | nil =>
      intro t _
      cases t with
      | mk d lf ch => exact ⟨TrieNode.mk d true ch, rfl, rfl, by simp [trie_insert_aux]⟩
  | cons c rest ih =>
      intro t ht
      cases t with
      | mk d lf ch =>
          have hchild : ∀ v, (match ch c with
              | none => create_trie_node (d + 1)
              | some u => u) = v → v.depth = d + 1 ∧ DepthOk v := by
            intro v hv
            cases hch : ch c with
            | none =>
                rw [hch] at hv
                constructor
                · rw [← hv]; simp [create_trie_node]
                · rw [← hv]; exact depthOk_create _
            | some u' =>
                rw [hch] at hv
                have := ht.child (c := c) (by simpa using hch)
                rw [← hv]
                exact ⟨by simpa using this.1, this.2⟩
          obtain ⟨hv, hvd⟩ := hchild _ rfl
          obtain ⟨u, hu, hul, hud⟩ := ih _ hvd
          refine ⟨u, ?_, hul, ?_⟩
          · simp only [trie_insert_aux, walk, TrieNode.children_mk,
              Function.update_same]
            exact hu
          · rw [hud, hv]
            simp [Nat.add_comm, Nat.add_assoc, Nat.add_left_comm]
  
theorem trie_insert_aux_idem : ∀ (s : List Byte) (t : TrieNode),
    trie_insert_aux (trie_insert_aux t s) s = trie_insert_aux t s := by
  intro s
  induction s with
  | nil => intro t; cases t with | mk d lf ch => simp [trie_insert_aux]
  | cons c rest ih =>
      intro t
      cases t with
      | mk d lf ch =>
          simp only [trie_insert_aux, Function.update_same]
          rw [ih]
          simp [Function.update_idem]

/-- Readout weight matrices (`float readout_weights[OUT_DIM][RESERVOIR_SIZE]`). -/
abbrev OMat := Fin OUT_DIM → RVec

/-- The logit `z` computed by `readout_forward` for output unit `i`:
`z = sum_j readout_weights[i][j] * h_state[j]`. -/
noncomputable def readout_logit (W : OMat) (h : RVec) (i : Fin OUT_DIM) : ℝ :=
  ∑ j, W i j * h j

/-- Function `readout_forward` from the source: exponentiate each logit, sum the
exponentials, and normalize (softmax). -/
noncomputable def readout_forward (W : OMat) (h : RVec) (i : Fin OUT_DIM) : ℝ :=
  Real.exp (readout_logit W h i) / ∑ i', Real.exp (readout_logit W h i')

/-- The mutable memory the readout training step can see: the global
reservoir weight bank, the global readout weights, and the caller's
state buffer `h_state` (passed as `const float*`, so read-only in C). -/
structure Mem where
  reservoir_weights : ℕ → RMat
  readout_weights : OMat
  h_state : RVec

/-- The inner `for j` loop of `readout_train` on row `i`:
`readout_weights[i][j] -= lr * grad * h_state[j]` entry by entry, where
`grad = probs[i] - (i == gold_index ? 1 : 0)` and `probs` come from
`readout_forward` on the pre-update weights (the snapshot `m`). -/
noncomputable def readout_train_row (m : Mem) (gold_index : ℕ) (lr : ℝ)
    (i : Fin OUT_DIM) (row : RVec) : RVec :=
  (List.finRange RESERVOIR_SIZE).foldl
    (fun r j => Function.update r j
      (r j - lr * (readout_forward m.readout_weights m.h_state i -
        (if (i : ℕ) = gold_index then 1 else 0)) * m.h_state j)) row

/-- Function `readout_train` from the source: the outer `for i` loop, replacing
each row of the readout weights in place.  Only `readout_weights` is
written; the reservoir bank and the state buffer are read-only here. -/
noncomputable def readout_train (m : Mem) (gold_index : ℕ) (lr : ℝ) : Mem :=
  { m with readout_weights :=
      ((List.finRange OUT_DIM).foldl
        (fun W i => Function.update W i (readout_train_row m gold_index lr i (W i)))
        m.readout_weights) }

/-- Constant `RAND_MAX` of the C library (the conventional glibc value `2^31 - 1`;
the source includes `<stdlib.h>` and does not redefine it). -/
abbrev RAND_MAX : ℕ := 2147483647

/-- Function `rand_float` from the source, in exact rational arithmetic:
`rand() / (RAND_MAX/2) - 1.0`, where `RAND_MAX/2` is C integer division
and `r` is the value returned by `rand()` (an integer in `[0, RAND_MAX]`). -/
def rand_float (r : ℕ) : ℚ :=
  (r : ℚ) / ((RAND_MAX / 2 : ℕ) : ℚ) - 1

/-- Number of entries of one reservoir matrix
(`RESERVOIR_SIZE * RESERVOIR_SIZE`). -/
abbrev NSQ : ℕ := RESERVOIR_SIZE * RESERVOIR_SIZE

/-- The raw random entries drawn by `init_reservoir_weights` for one
depth level: entry `i` is `rand_float` of the `i`-th `rand()` value. -/
noncomputable def raw_weights (rv : Fin NSQ → ℕ) (i : Fin NSQ) : ℝ :=
  ((rand_float (rv i) : ℚ) : ℝ)

/-- The mean absolute entry value `avg_abs = norm_sum / (R*R)` computed
by `init_reservoir_weights`. -/
noncomputable def avg_abs (e : Fin NSQ → ℝ) : ℝ :=
  (∑ i, |e i|) / (NSQ : ℝ)

/-- The scale factor of `init_reservoir_weights`:
`(avg_abs > 1e-5) ? RHO / avg_abs : 1`. -/
noncomputable def reservoir_scale (e : Fin NSQ → ℝ) : ℝ :=
  if avg_abs e > 1e-5 then RHO / avg_abs e else 1

/-- One depth level of `init_reservoir_weights`: draw the entries with
`rand_float`, then multiply every entry by the scale factor. -/
noncomputable def init_reservoir_weights (rv : Fin NSQ → ℕ) (i : Fin NSQ) : ℝ :=
  raw_weights rv i * reservoir_scale (raw_weights rv)

theorem foldl_update_apply {ι : Type} {α : Type} [DecidableEq ι] (f : ι → α → α) :
    ∀ (js : List ι) (r : ι → α), js.Nodup → ∀ j,
      (js.foldl (fun g j' => Function.update g j' (f j' (g j'))) r) j =
        if j ∈ js then f j (r j) else r j := by
  intro js
  induction js with
  | nil => intro r _ j; simp
  | cons c rest ih =>
      intro r hnd j
      have hc : c ∉ rest := (List.nodup_cons.mp hnd).1
      have hrest : rest.Nodup := (List.nodup_cons.mp hnd).2
      rw [List.foldl_cons, ih _ hrest j]
      by_cases hj : j ∈ rest
      · have hjc : j ≠ c := fun h => hc (h ▸ hj)
        simp [hj, Function.update_noteq hjc, List.mem_cons]
      · by_cases hjc : j = c
        · subst hjc
          simp [hj, Function.update_same]
        · simp [hj, hjc, Function.update_noteq hjc]

theorem readout_train_row_apply (m : Mem) (gold_index : ℕ) (lr : ℝ)
    (i : Fin OUT_DIM) (row : RVec) (j : Fin RESERVOIR_SIZE) :
    readout_train_row m gold_index lr i row j =
      row j - lr * (readout_forward m.readout_weights m.h_state i -
        (if (i : ℕ) = gold_index then 1 else 0)) * m.h_state j := by
  have h := foldl_update_apply
    (fun (j' : Fin RESERVOIR_SIZE) (x : ℝ) =>
      x - lr * (readout_forward m.readout_weights m.h_state i -
        (if (i : ℕ) = gold_index then 1 else 0)) * m.h_state j')
    (List.finRange RESERVOIR_SIZE) row (List.nodup_finRange _) j
  simpa [readout_train_row, List.mem_finRange] using h

theorem readout_train_weights_apply (m : Mem) (gold_index : ℕ) (lr : ℝ)
    (i : Fin OUT_DIM) :
    (readout_train m gold_index lr).readout_weights i =
      readout_train_row m gold_index lr i (m.readout_weights i) := by
  have h := foldl_update_apply
    (fun (i' : Fin OUT_DIM) (row : RVec) => readout_train_row m gold_index lr i' row)
    (List.finRange OUT_DIM) m.readout_weights (List.nodup_finRange _) i
  simpa [readout_train, List.mem_finRange] using h

/-- C1: for every readout weight matrix and state vector,
`readout_forward` returns `OUT_DIM` non-negative values that sum to 1
(a probability simplex); exact over the real-number idealization, which
is the "up to floating-point tolerance" statement of the spec. -/
theorem c1_readout_forward_simplex (W : OMat) (h : RVec) :
    (∀ i, 0 ≤ readout_forward W h i) ∧ (∑ i, readout_forward W h i) = 1 := by
  have hS : (0 : ℝ) < ∑ i', Real.exp (readout_logit W h i') :=
    Finset.sum_pos (fun i _ => Real.exp_pos _) Finset.univ_nonempty
  constructor
  · intro i
    exact div_nonneg (Real.exp_pos _).le hS.le
  · unfold readout_forward
    rw [← Finset.sum_div, div_self hS.ne']

/-- C4: any number of `readout_train` (train_step) calls leaves every
reservoir weight matrix and the input state vector unchanged; only the
readout weights are modified (the state is moreover `const` in C, and
`readout_train` only reads it). -/
theorem c4_train_touches_only_readout (m : Mem) (calls : List (ℕ × ℝ)) :
    (calls.foldl (fun m' p => readout_train m' p.1 p.2) m).reservoir_weights =
        m.reservoir_weights ∧
      (calls.foldl (fun m' p => readout_train m' p.1 p.2) m).h_state = m.h_state := by
  induction calls generalizing m with
  | nil => exact ⟨rfl, rfl⟩
  | cons p rest ih =>
      rw [List.foldl_cons]
      simpa using ih (readout_train m p.1 p.2)

/-- C5: for a gold index in `[0, OUT_DIM)`, `readout_train` first computes
the probabilities with `readout_forward` and then performs
`weights[i][j] := weights[i][j] - lr * g_i * state[j]` with
`g_i = probs[i] - 1` when `i` is the gold index and `g_i = probs[i]`
otherwise. -/
theorem c5_readout_train_update (m : Mem) (gold_index : ℕ) (lr : ℝ)
    (hg : gold_index < OUT_DIM) (i : Fin OUT_DIM) (j : Fin RESERVOIR_SIZE) :
    (readout_train m gold_index lr).readout_weights i j =
      m.readout_weights i j -
        lr * (readout_forward m.readout_weights m.h_state i -
          (if (i : ℕ) = gold_index then 1 else 0)) * m.h_state j := by
  rw [readout_train_weights_apply, readout_train_row_apply]

/-- An all-zero memory, used as a concrete instance in witnesses. -/
noncomputable def mem0 : Mem :=
  ⟨fun _ => fun _ _ => 0, fun _ _ => 0, fun _ => 0⟩

/-- Witness for C5 at a concrete memory, gold index 0 and `lr = 1`. -/
theorem c5_readout_train_update_witness : (0 : ℕ) < OUT_DIM ∧
    (readout_train mem0 0 1).readout_weights 0 0 =
      mem0.readout_weights 0 0 -
        1 * (readout_forward mem0.readout_weights mem0.h_state 0 -
          (if ((0 : Fin OUT_DIM) : ℕ) = 0 then 1 else 0)) * mem0.h_state 0 :=
  ⟨by norm_num, c5_readout_train_update mem0 0 1 (by norm_num) 0 0⟩

/-- The byte string "cat" (`c = 99, a = 97, t = 116`). -/
def cat : List Byte := [99, 97, 116]

/-- The byte string "dog" (`d = 100, o = 111, g = 103`). -/
def dog : List Byte := [100, 111, 103]

/-- The byte string "catalog". -/
def catalog : List Byte := [99, 97, 116, 97, 108, 111, 103]

/-- The trie built from exactly the strings "cat" and "dog". -/
def catDogTrie : TrieNode :=
  trie_insert (trie_insert (create_trie_node 0) cat) dog

/-- C2: when the current node has no child for the current symbol,
`trie_reservoir_forward` stops at once and returns the state accumulated
so far (the pure embedding cannot modify the trie, which the C code also
never writes during forward).  Concretely, on the trie built from "cat"
and "dog" only, input "catalog" performs exactly the three updates of
"cat" (depths 0, 1, 2) and the trailing "alog" leaves the state
unchanged. -/
theorem c2_missing_child_early_stop :
    (∀ (w : ℕ → RMat) (nz : ℕ → RVec) (t : TrieNode) (c : Byte)
        (rest : List Byte) (h : RVec) (k : ℕ),
      t.children c = none → forward_aux w nz t (c :: rest) h k = h) ∧
    (∀ (w : ℕ → RMat) (nz : ℕ → RVec) (h : RVec),
      trie_reservoir_forward w nz catDogTrie catalog h =
          reservoir_update (w 2) (nz 2)
            (reservoir_update (w 1) (nz 1) (reservoir_update (w 0) (nz 0) h)) ∧
        trie_reservoir_forward w nz catDogTrie catalog h =
          trie_reservoir_forward w nz catDogTrie cat h) := by
  constructor
  · intro w nz t c rest h k hnone
    cases t with
    | mk d lf ch =>
        simp only [TrieNode.children_mk] at hnone
        simp [forward_aux, hnone]
  · intro w nz h
    exact ⟨rfl, rfl⟩

/-- Witness for the conditional part of C2: a fresh root has no child
for symbol 0, and `forward_aux` on input `[0]` returns the state given. -/
theorem c2_missing_child_early_stop_witness :
    (create_trie_node 0).children 0 = none ∧
      forward_aux (fun _ => fun _ _ => 0) (fun _ _ => 0) (create_trie_node 0)
        [0] (fun _ => 0) 0 = (fun _ => (0 : ℝ)) :=
  ⟨rfl, c2_missing_child_early_stop.1 _ _ _ _ _ _ _ rfl⟩

/-- C3: on an input whose `MAX_DEPTH`-prefix is fully matched by a trie
with the depth invariant and root depth 0, the forward pass performs
exactly `min (length input) MAX_DEPTH` updates, the `k`-th using the
weight matrix of depth `k` and the `k`-th noise draw; and each update is
`state := ALPHA * tanh(W * state + 0.01 * draw)` componentwise. -/
theorem c3_forward_full_match :
    (∀ (w : ℕ → RMat) (nz : ℕ → RVec) (t : TrieNode) (input : List Byte)
        (h0 : RVec),
      DepthOk t → t.depth = 0 → (walk t (input.take MAX_DEPTH)).isSome = true →
      trie_reservoir_forward w nz t input h0 =
        (List.range (min input.length MAX_DEPTH)).foldl
          (fun h k => reservoir_update (w k) (nz k) h) h0) ∧
    (∀ (Wl : RMat) (nzv h : RVec) (i : Fin RESERVOIR_SIZE),
      reservoir_update Wl nzv h i =
        ALPHA * activate_tanh ((∑ j, Wl i j * h j) + 0.01 * nzv i)) := by
  constructor
  · intro w nz t input h0 ht h0d hw
    unfold trie_reservoir_forward
    rw [forward_aux_eq_foldl w nz _ _ _ _ ht h0d]
    have hlen := trie_forward_depths_aux_length_of_walk (input.take MAX_DEPTH) t hw
    have hr := trie_forward_depths_aux_range (input.take MAX_DEPTH) t ht
    rw [hr, hlen, h0d, List.length_take, ← List.range_eq_range', Nat.min_comm]
  · intro Wl nzv h i
    simp [reservoir_update, matvec]

/-- Witness for C3 on the "cat"/"dog" trie with input "cat". -/
theorem c3_forward_full_match_witness :
    (walk catDogTrie (cat.take MAX_DEPTH)).isSome = true ∧
      trie_reservoir_forward (fun _ => fun _ _ => 0) (fun _ _ => 0) catDogTrie cat
          (fun _ => 0) =
        (List.range (min cat.length MAX_DEPTH)).foldl
          (fun h k => reservoir_update ((fun _ => fun _ _ => (0 : ℝ)) k)
            ((fun _ _ => (0 : ℝ)) k) h) (fun _ => 0) :=
  ⟨by decide,
    c3_forward_full_match.1 _ _ catDogTrie cat _
      (depthOk_insert _ _ (depthOk_insert _ _ (depthOk_create 0))) rfl (by decide)⟩

/-- C6: `trie_insert` truncates the string to its `MAX_DEPTH`-prefix
(creating at most `MAX_DEPTH` levels below the root, silently and
without error) and sets the leaf flag on the node reached at depth
`min (length s) MAX_DEPTH` (for a root of depth 0 with the depth
invariant). -/
theorem c6_insert_depth_bound (t : TrieNode) (s : List Byte) :
    trie_insert t s = trie_insert t (s.take MAX_DEPTH) ∧
      (DepthOk t → t.depth = 0 →
        ∃ u, walk (trie_insert t s) (s.take MAX_DEPTH) = some u ∧
          u.is_leaf = true ∧ u.depth = min s.length MAX_DEPTH) := by
  constructor
  · unfold trie_insert
    rw [List.take_take, min_self]
  · intro ht h0
    obtain ⟨u, hu, hl, hd⟩ := walk_trie_insert_aux (s.take MAX_DEPTH) t ht
    refine ⟨u, hu, hl, ?_⟩
    rw [hd, h0, List.length_take, Nat.min_comm]
    simp

/-- A 20-symbol string (longer than `MAX_DEPTH`), 20 copies of "a". -/
def long_a : List Byte := List.replicate 20 97

/-- Witness for C6 at a fresh root and a 20-symbol string. -/
theorem c6_insert_depth_bound_witness :
    DepthOk (create_trie_node 0) ∧
      ∃ u, walk (trie_insert (create_trie_node 0) long_a)
          (long_a.take MAX_DEPTH) = some u ∧
        u.is_leaf = true ∧ u.depth = min long_a.length MAX_DEPTH :=
  ⟨depthOk_create 0,
    (c6_insert_depth_bound (create_trie_node 0) long_a).2 (depthOk_create 0) rfl⟩

/-- C8: a fresh root satisfies the depth invariant, `trie_insert`
preserves it, and under it (with root depth 0) the weight-bank indices
used by `trie_reservoir_forward` are exactly `0, 1, ..., k-1` for some
`k ≤ MAX_DEPTH` (so the node reached at iteration `i` has depth `i` and
every access is in bounds for a bank of `MAX_DEPTH` matrices); moreover
the forward pass is precisely the fold of `reservoir_update` over that
index list. -/
theorem c8_depth_invariant :
    DepthOk (create_trie_node 0) ∧
      (∀ (t : TrieNode) (s : List Byte), DepthOk t → DepthOk (trie_insert t s)) ∧
      (∀ (t : TrieNode) (input : List Byte), DepthOk t → t.depth = 0 →
        ∃ k, k ≤ MAX_DEPTH ∧ trie_forward_depths t input = List.range k) ∧
      (∀ (w : ℕ → RMat) (nz : ℕ → RVec) (t : TrieNode) (input : List Byte)
          (h : RVec),
        DepthOk t → t.depth = 0 →
        trie_reservoir_forward w nz t input h =
          (trie_forward_depths t input).foldl
            (fun h' l => reservoir_update (w l) (nz l) h') h) := by
  refine ⟨depthOk_create 0, depthOk_insert, ?_, ?_⟩
  · intro t input ht h0
    have hr := trie_forward_depths_aux_range (input.take MAX_DEPTH) t ht
    rw [h0, ← List.range_eq_range'] at hr
    refine ⟨(trie_forward_depths_aux t (input.take MAX_DEPTH)).length, ?_, ?_⟩
    · exact le_trans (trie_forward_depths_aux_length_le _ _) (List.length_take_le _ _)
    · unfold trie_forward_depths
      exact hr
  · intro w nz t input h ht h0
    unfold trie_reservoir_forward trie_forward_depths
    exact forward_aux_eq_foldl w nz _ _ _ _ ht h0

/-- Witness for C8 on the "cat"/"dog" trie with input "catalog". -/
theorem c8_depth_invariant_witness :
    DepthOk catDogTrie ∧
      ∃ k, k ≤ MAX_DEPTH ∧ trie_forward_depths catDogTrie catalog = List.range k :=
  ⟨c8_depth_invariant.2.1 _ dog (c8_depth_invariant.2.1 _ cat c8_depth_invariant.1),
    c8_depth_invariant.2.2.1 catDogTrie catalog
      (c8_depth_invariant.2.1 _ dog (c8_depth_invariant.2.1 _ cat c8_depth_invariant.1))
      rfl⟩

/-- C10: `trie_insert` is idempotent; inserting the same string again
returns a structurally identical trie (same nodes, depths, leaf flags
and children). -/
theorem c10_insert_idempotent (t : TrieNode) (s : List Byte) :
    trie_insert (trie_insert t s) s = trie_insert t s := by
  unfold trie_insert
  exact trie_insert_aux_idem _ _

/-- C7: if the pre-scale mean absolute entry value of a generated matrix
exceeds the degeneracy threshold `1e-5`, the mean absolute entry value
after scaling is exactly `RHO` (in the real idealization); otherwise the
scale factor is exactly 1.  In the scaling branch the divisor `avg_abs`
is strictly positive, so no division by zero occurs. -/
theorem c7_reservoir_scaling (rv : Fin NSQ → ℕ) :
    (avg_abs (raw_weights rv) > 1e-5 →
      avg_abs (init_reservoir_weights rv) = RHO) ∧
    (¬ avg_abs (raw_weights rv) > 1e-5 → reservoir_scale (raw_weights rv) = 1) := by
  constructor
  · intro h
    have ha : (0 : ℝ) < avg_abs (raw_weights rv) := lt_trans (by norm_num) h
    have hs : reservoir_scale (raw_weights rv) = RHO / avg_abs (raw_weights rv) :=
      if_pos h
    have hsnn : 0 ≤ reservoir_scale (raw_weights rv) := by
      rw [hs]
      have : (0 : ℝ) ≤ RHO := by rw [RHO]; norm_num
      exact div_nonneg this ha.le
    calc avg_abs (init_reservoir_weights rv)
        = (∑ i, |raw_weights rv i * reservoir_scale (raw_weights rv)|) / (NSQ : ℝ) :=
          rfl
      _ = (∑ i, |raw_weights rv i| * reservoir_scale (raw_weights rv)) / (NSQ : ℝ) := by
          have hsum : (∑ i, |raw_weights rv i * reservoir_scale (raw_weights rv)|) =
              ∑ i, |raw_weights rv i| * reservoir_scale (raw_weights rv) :=
            Finset.sum_congr rfl (fun i _ => by rw [abs_mul, abs_of_nonneg hsnn])
          rw [hsum]
      _ = ((∑ i, |raw_weights rv i|) * reservoir_scale (raw_weights rv)) / (NSQ : ℝ) := by
          rw [Finset.sum_mul]
      _ = avg_abs (raw_weights rv) * reservoir_scale (raw_weights rv) := by
          rw [avg_abs, mul_div_right_comm]
      _ = avg_abs (raw_weights rv) * (RHO / avg_abs (raw_weights rv)) := by rw [hs]
      _ = RHO := by
          rw [mul_comm, div_mul_cancel₀ _ ha.ne']
  · intro h
    exact if_neg h

/-- A concrete draw stream making every raw entry equal to 1. -/
def rvAll : Fin NSQ → ℕ := fun _ => 2147483646

/-- Witness for C7: an all-ones raw matrix has mean absolute value 1,
above the threshold, and after scaling the mean is exactly `RHO`. -/
theorem c7_reservoir_scaling_witness :
    avg_abs (raw_weights rvAll) > 1e-5 ∧
      avg_abs (init_reservoir_weights rvAll) = RHO := by
  have h1 : raw_weights rvAll = fun _ => 1 := by
    funext i
    simp only [raw_weights, rvAll, rand_float, RAND_MAX]
    norm_num
  have h : avg_abs (raw_weights rvAll) > 1e-5 := by
    rw [h1]
    unfold avg_abs
    simp only [abs_one, Finset.sum_const, Finset.card_univ, Fintype.card_fin,
      nsmul_eq_mul, mul_one]
    norm_num
  exact ⟨h, (c7_reservoir_scaling rvAll).1 h⟩

/-- Counterexample to C9 as stated: the integer `RAND_MAX` is a possible
`rand()` value, yet under exact rational arithmetic
`rand_float RAND_MAX = RAND_MAX / (RAND_MAX/2) - 1 > 1`, outside the
closed interval `[-1, 1]`. -/
theorem c9_rand_float_counterexample :
    RAND_MAX ≤ RAND_MAX ∧ ¬ rand_float RAND_MAX ≤ 1 := by
  refine ⟨le_rfl, ?_⟩
  simp only [rand_float, RAND_MAX]
  norm_num

/-- C9 (amended): for every `rand()` value `r ≤ RAND_MAX`, `rand_float r`
lies in the closed interval `[-1, 1 + 1/(RAND_MAX/2)]`; it lies in
`[-1, 1]` whenever `r < RAND_MAX`, and at `r = RAND_MAX` it equals
`1 + 1/(RAND_MAX/2)`, slightly above 1. -/
theorem c9_rand_float_range :
    (∀ r : ℕ, r ≤ RAND_MAX →
      -1 ≤ rand_float r ∧ rand_float r ≤ 1 + 1 / ((RAND_MAX / 2 : ℕ) : ℚ)) ∧
    (∀ r : ℕ, r < RAND_MAX → rand_float r ≤ 1) ∧
    rand_float RAND_MAX = 1 + 1 / ((RAND_MAX / 2 : ℕ) : ℚ) := by
  refine ⟨?_, ?_, ?_⟩
  · intro r hr
    have hr' : (r : ℚ) ≤ 2147483647 := by exact_mod_cast hr
    constructor
    · simp only [rand_float, RAND_MAX]
      have : (0 : ℚ) ≤ (r : ℚ) / ((2147483647 / 2 : ℕ) : ℚ) := by positivity
      linarith
    · simp only [rand_float, RAND_MAX]
      rw [sub_le_iff_le_add,
        div_le_iff₀ (by norm_num : (0 : ℚ) < ((2147483647 / 2 : ℕ) : ℚ))]
      norm_num
      linarith
  · intro r hr
    have hrn : r ≤ 2147483646 := by
      have hlt : r < 2147483647 := hr
      omega
    have hr' : (r : ℚ) ≤ 2147483646 := by exact_mod_cast hrn
    simp only [rand_float, RAND_MAX]
    rw [sub_le_iff_le_add,
      div_le_iff₀ (by norm_num : (0 : ℚ) < ((2147483647 / 2 : ℕ) : ℚ))]
    norm_num
    linarith
  · simp only [rand_float, RAND_MAX]
    norm_num

/-- Witness for the amended C9 at the concrete draw `r = 5`. -/
theorem c9_rand_float_range_witness :
    ((5 : ℕ) ≤ RAND_MAX ∧ -1 ≤ rand_float 5 ∧
        rand_float 5 ≤ 1 + 1 / ((RAND_MAX / 2 : ℕ) : ℚ)) ∧
      (5 : ℕ) < RAND_MAX ∧ rand_float 5 ≤ 1 := by
  have h1 := c9_rand_float_range.1 5 (by norm_num)
  have h2 := c9_rand_float_range.2.1 5 (by norm_num)
  exact ⟨⟨by norm_num, h1.1, h1.2⟩, by norm_num, h2⟩
